import Mathlib

/-!
Verification development for the bucket-elimination (BE) solver for influence
diagrams found in `src/include/be.h` (class `merlin::be`).

The factor algebra (`factor.h`) is not part of the sources, so factors and
their operations are modelled from the specification (section 4.1): a factor
is a scope (list of variable indices) together with a valuation of total
assignments, and a semantic type tag.  The bucket engine itself
(initial bucket partitioning, forward elimination pass, re-bucketing via
`insert`, root combination, backward policy pass and the configuration
parser) is translated directly from `be.h`.
-/

/-- Semantic type tag of a factor, from the spec: tag ∈ {Probability, Utility}
(`factor::FactorType` in the sources). -/
inductive FType
  | Probability
  | Utility
deriving DecidableEq

/-- Boolean test for the Probability tag. -/
def FType.isProb : FType → Bool
  | FType.Probability => true
  | FType.Utility => false

/-- Boolean test for the Utility tag. -/
def FType.isUtil : FType → Bool
  | FType.Probability => false
  | FType.Utility => true

/-- Modelled from the spec: a factor (`factor.h` is not in the sources) is a
mapping from joint configurations of its scope to rational entries, with a
type tag.  The table of entries is represented by its evaluation on total
assignments `Nat → Nat`; the scope is the list of variable indices the factor
depends on. -/
structure EFactor where
  scope : List Nat
  val : (Nat → Nat) → ℚ
  ftype : FType

/-- Point update of an assignment. -/
def upd (σ : Nat → Nat) (x v : Nat) : Nat → Nat :=
  fun y => if y = x then v else σ y

/-- Modelled from the spec: union of two scopes (result scope of binary factor
operations), keeping the left scope's elements first. -/
def unionL (a b : List Nat) : List Nat :=
  a ++ b.filter (fun z => decide (z ∉ a))

/-- Modelled from the spec: a scalar (constant) factor with empty scope. -/
def constF (q : ℚ) : EFactor :=
  ⟨[], fun _ => q, FType.Probability⟩

/-- Default factor used for out-of-range pool lookups. -/
def dfltF : EFactor := constF 0

/-- Re-tagging a factor (`factor::set_type` in the sources). -/
def setType (f : EFactor) (t : FType) : EFactor :=
  ⟨f.scope, f.val, t⟩

/-- Modelled from the spec: factor product, entrywise over aligned tuples,
scope is the union of the scopes. -/
def fmul (f g : EFactor) : EFactor :=
  ⟨unionL f.scope g.scope, fun σ => f.val σ * g.val σ, f.ftype⟩

/-- Modelled from the spec: factor sum, entrywise over aligned tuples. -/
def fadd (f g : EFactor) : EFactor :=
  ⟨unionL f.scope g.scope, fun σ => f.val σ + g.val σ, f.ftype⟩

/-- Modelled from the spec: factor quotient, entrywise; division by zero
yields zero (rational division), realizing the 0/0 = 0 convention. -/
def fdiv (f g : EFactor) : EFactor :=
  ⟨unionL f.scope g.scope, fun σ => f.val σ / g.val σ, f.ftype⟩

/-- Modelled from the spec: sum-marginalization of a single variable `x`
(`f.sum(vs)` with a singleton eliminator); a no-op when `x` is not in the
scope. -/
def fsum (card : Nat → Nat) (f : EFactor) (x : Nat) : EFactor :=
  if x ∈ f.scope then
    ⟨f.scope.filter (fun z => decide (z ≠ x)),
     fun σ => ((List.range (card x)).map (fun v => f.val (upd σ x v))).sum,
     f.ftype⟩
  else f

/-- Maximum of a list of rationals (the head seeds the fold; `0` for the
empty list, which never occurs on well-formed tables). -/
def qlistMax : List ℚ → ℚ
  | [] => 0
  | q :: qs => qs.foldl max q

/-- Modelled from the spec: max-marginalization of a single variable `x`;
a no-op when `x` is not in the scope. -/
def fmax (card : Nat → Nat) (f : EFactor) (x : Nat) : EFactor :=
  if x ∈ f.scope then
    ⟨f.scope.filter (fun z => decide (z ≠ x)),
     fun σ => qlistMax ((List.range (card x)).map (fun v => f.val (upd σ x v))),
     f.ftype⟩
  else f

/-- Modelled from the spec: slicing, fixing variable `x` to value `a`;
a no-op when `x` is not in the scope. -/
def fslice (f : EFactor) (x a : Nat) : EFactor :=
  if x ∈ f.scope then
    ⟨f.scope.filter (fun z => decide (z ≠ x)), fun σ => f.val (upd σ x a), f.ftype⟩
  else f

/-- All total assignments differing from the zero assignment only on the
given scope, used to enumerate a factor's entries. -/
def enumAssign (card : Nat → Nat) : List Nat → List (Nat → Nat)
  | [] => [fun _ => 0]
  | x :: xs => (enumAssign card xs).flatMap (fun σ => (List.range (card x)).map (fun v => upd σ x v))

/-- Modelled from the spec: scalar max of a factor, the maximum over all its
entries (`factor::max()`); for a scalar factor this is its single entry. -/
def maxAll (card : Nat → Nat) (f : EFactor) : ℚ :=
  qlistMax ((enumAssign card f.scope).map f.val)

/-- The influence-diagram model as seen by the engine (`limid` base class):
domain cardinalities, per-variable kind tag ('c' chance, 'd' decision,
'v' value), input factor list, LIMID flag. -/
structure Influ where
  card : Nat → Nat
  vtype : Nat → Char
  factors : List EFactor
  islimid : Bool

/-- Ephemeral bucket state of `be::run`: the growing factor pool `fin`,
the per-variable adjacency sets `vin`, and the constant-factor ids `roots`. -/
structure BEState where
  fin : List EFactor
  vin : Nat → List Nat
  roots : List Nat

/-- Scope of the factor with a given id in a pool. -/
def scopeOf (fin : List EFactor) (id : Nat) : List Nat :=
  (fin.getD id dfltF).scope

/-- The first variable of a list that appears in a scope (the bucket variable
of a factor relative to an elimination order). -/
def bvar (ord : List Nat) (s : List Nat) : Option Nat :=
  ord.find? (fun y => decide (y ∈ s))

/-- Translation of `be::insert` (be.h:226): scan the order suffix past the
current variable and add the new factor id to the bucket of the first
suffix variable appearing in its scope; no bucket receives it otherwise. -/
def insertAdj (vin : Nat → List Nat) (fid : Nat) (f : EFactor) (suffix : List Nat) :
    Nat → List Nat :=
  match suffix.find? (fun y => decide (y ∈ f.scope)) with
  | some y => fun z => if z = y then vin z ++ [fid] else vin z
  | none => vin

/-- One message emission of the forward pass (be.h:323-326 and the analogous
sites): push the factor on the pool, update the adjacencies via `insert`,
and record the id in `roots` when the scope is empty (`nvar() == 0`). -/
def pushMsg (g : EFactor) (suffix : List Nat) (st : BEState) : BEState :=
  ⟨st.fin ++ [g],
   insertAdj st.vin st.fin.length g suffix,
   if g.scope.length = 0 then st.roots ++ [st.fin.length] else st.roots⟩

/-- The Probability-tagged ids of a bucket (`phi` in be.h:299-307). -/
def filterP (fin : List EFactor) (ids : List Nat) : List Nat :=
  ids.filter (fun i => ((fin.getD i dfltF).ftype).isProb)

/-- The Utility-tagged ids of a bucket (`psi` in be.h:299-307). -/
def filterU (fin : List EFactor) (ids : List Nat) : List Nat :=
  ids.filter (fun i => ((fin.getD i dfltF).ftype).isUtil)

/-- Product of the factors with the given ids, seeded with the scalar 1.0
(`factor comb(1.0); comb *= fin[i]` in be.h:315-318). -/
def probFold (fin : List EFactor) (l : List Nat) : EFactor :=
  l.foldl (fun a i => fmul a (fin.getD i dfltF)) (constF 1)

/-- Sum of the factors with the given ids, seeded with the scalar 0.0
(`factor comb(0.0); comb += fin[j]` in be.h:366-369). -/
def utilFold (fin : List EFactor) (l : List Nat) : EFactor :=
  l.foldl (fun a i => fadd a (fin.getD i dfltF)) (constF 0)

/-- Chance-bucket processing (be.h:310-346): multiply the probability
factors, sum out the variable, tag and emit the probability message; then
for each utility factor emit `sum(comb * fin[j], x) / f` tagged Utility,
reading `fin[j]` from the growing pool as the source does. -/
def chanceStep (m : Influ) (x : Nat) (suffix : List Nat) (st : BEState) : BEState :=
  let phi := filterP st.fin (st.vin x)
  let psi := filterU st.fin (st.vin x)
  let comb := probFold st.fin phi
  let fmsg := setType (fsum m.card comb x) FType.Probability
  let st1 := pushMsg fmsg suffix st
  psi.foldl
    (fun s j =>
      pushMsg (setType (fdiv (fsum m.card (fmul comb (s.fin.getD j dfltF)) x) fmsg)
        FType.Utility) suffix s)
    st1

/-- Decision-bucket processing (be.h:347-380): emit a slice at value 0 of
each probability factor, then sum the utility factors (reading from the
grown pool, as the source does) and emit their max-marginal. -/
def decisionStep (m : Influ) (x : Nat) (suffix : List Nat) (st : BEState) : BEState :=
  let phi := filterP st.fin (st.vin x)
  let psi := filterU st.fin (st.vin x)
  let st1 := phi.foldl
    (fun s i => pushMsg (setType (fslice (s.fin.getD i dfltF) x 0) FType.Probability) suffix s)
    st
  pushMsg (setType (fmax m.card (utilFold st1.fin psi) x) FType.Utility) suffix st1

/-- Processing of one variable of the forward pass (be.h:289-381): skip an
empty bucket, dispatch on the variable kind; kinds other than 'c' and 'd'
fall through with no processing. -/
def stepVar (m : Influ) (x : Nat) (suffix : List Nat) (st : BEState) : BEState :=
  if st.vin x = [] then st
  else if m.vtype x = 'c' then chanceStep m x suffix st
  else if m.vtype x = 'd' then decisionStep m x suffix st
  else st

/-- The forward pass over a list of variables whose common remaining tail is
`r`: each variable is processed with the concatenation of the still-pending
part of the list and `r` as its order suffix. -/
def forwardSteps (m : Influ) : List Nat → List Nat → BEState → BEState
  | [], _, st => st
  | x :: p, r, st => forwardSteps m p r (stepVar m x (p ++ r) st)

/-- Inner body of the initial bucket partitioning (be.h:265-270): a factor
not yet used whose scope contains the current variable is appended to that
variable's bucket and marked used. -/
def markFactor (fin : List EFactor) (x : Nat) (acc : (Nat → List Nat) × (Nat → Bool))
    (i : Nat) : (Nat → List Nat) × (Nat → Bool) :=
  if acc.2 i = false ∧ x ∈ scopeOf fin i then
    (fun y => if y = x then acc.1 y ++ [i] else acc.1 y,
     fun j => if j = i then true else acc.2 j)
  else acc

/-- One variable of the initial bucket partitioning: scan all factor ids. -/
def markStep (fin : List EFactor) (acc : (Nat → List Nat) × (Nat → Bool)) (x : Nat) :
    (Nat → List Nat) × (Nat → Bool) :=
  (List.range fin.length).foldl (markFactor fin x) acc

/-- Initial bucket partitioning (be.h:258-281): iterate the elimination
order, assigning each still-unused factor to the bucket of the current
variable when its scope contains it. -/
def initBuckets (fin : List EFactor) (ord : List Nat) : Nat → List Nat :=
  (ord.foldl (markStep fin) (fun _ => [], fun _ => false)).1

/-- Bucket state at the start of the forward pass. -/
def stInit (m : Influ) (ord : List Nat) : BEState :=
  ⟨m.factors, initBuckets m.factors ord, []⟩

/-- Root combination (be.h:383-395): combine all constant root factors,
probabilities by product and utilities by sum, and take the scalar max. -/
def rootMEU (card : Nat → Nat) (st : BEState) : ℚ :=
  let pu := st.roots.foldl
    (fun (pu : EFactor × EFactor) r =>
      match (st.fin.getD r dfltF).ftype with
      | FType.Probability => (fmul pu.1 (st.fin.getD r dfltF), pu.2)
      | FType.Utility => (pu.1, fadd pu.2 (st.fin.getD r dfltF)))
    (constF 1, constF 0)
  maxAll card (fmul pu.1 pu.2)

/-- Backward-pass combination of one decision bucket (be.h:422-433):
`P = ∏` probability factors, `U = Σ` utility factors of the bucket, in one
pass over the ids, and the policy factor is `P * U`. -/
def policyPU (fin : List EFactor) (ids : List Nat) : EFactor :=
  let pu := ids.foldl
    (fun (pu : EFactor × EFactor) i =>
      match (fin.getD i dfltF).ftype with
      | FType.Probability => (fmul pu.1 (fin.getD i dfltF), pu.2)
      | FType.Utility => (pu.1, fadd pu.2 (fin.getD i dfltF)))
    (constF 1, constF 0)
  fmul pu.1 pu.2

/-- Product of the Probability-tagged factors among the given ids, the `P`
of the backward pass. -/
def probProd (fin : List EFactor) (ids : List Nat) : EFactor :=
  probFold fin (filterP fin ids)

/-- Sum of the Utility-tagged factors among the given ids, the `U` of the
backward pass. -/
def utilSum (fin : List EFactor) (ids : List Nat) : EFactor :=
  utilFold fin (filterU fin ids)

/-- Backward pass (be.h:413-437) over a list of variables (called with the
reversed elimination order): decision variables store their bucket's `P * U`
in the policy map, all other variables are skipped. -/
def backwardPass (m : Influ) (fin : List EFactor) (vin : Nat → List Nat) :
    List Nat → (Nat → Option EFactor) → (Nat → Option EFactor)
  | [], pol => pol
  | x :: rest, pol =>
    if m.vtype x = 'd' then
      backwardPass m fin vin rest
        (fun z => if z = x then some (policyPU fin (vin x)) else pol z)
    else
      backwardPass m fin vin rest pol

/-- Structured errors surfaced by the solver. -/
inductive MError
  | UnsupportedModel
  | BadConfig
deriving DecidableEq

/-- Result object of a successful run: the MEU scalar and the per-decision
policy map, together with the final bucket state they were read from. -/
structure RunResult where
  meu : ℚ
  policy : Nat → Option EFactor
  finalState : BEState

/-- The non-failing path of `be::run` (be.h:243-442): initial bucket
partitioning, forward elimination pass, root combination, backward policy
pass. -/
def runOk (m : Influ) (ord : List Nat) : RunResult :=
  let st1 := forwardSteps m ord [] (stInit m ord)
  ⟨rootMEU m.card st1,
   backwardPass m st1.fin st1.vin ord.reverse (fun _ => none),
   st1⟩

/-- Translation of `be::run` together with the LIMID check of `be::init`
(be.h:185-189): a LIMID input fails with UnsupportedModel before any bucket
is built; otherwise the full pipeline runs. -/
def run (m : Influ) (ord : List Nat) : Except MError RunResult :=
  if m.islimid then Except.error MError.UnsupportedModel
  else Except.ok (runOk m ord)

/-- Variable-ordering heuristics recognized by the configuration parser.
Modelled from the spec: the `OrderMethod` enumeration lives in a header that
is not part of the sources; the spec names MinFill (default), MinInduced and
WeightedMinFill. -/
inductive OrderMethod
  | MinFill
  | MinInduced
  | WeightedMinFill
deriving DecidableEq

/-- Configuration state set by `be::set_properties`: order heuristic and
debug flag. -/
structure BEConfig where
  orderMethod : OrderMethod
  debug : Bool
deriving DecidableEq

/-- Value of a leading decimal-digit prefix, accumulator style. -/
def digitsVal : List Char → Nat → Nat
  | c :: cs, acc => if c.isDigit then digitsVal cs (acc * 10 + (c.toNat - '0'.toNat)) else acc
  | [], acc => acc

/-- Model of the C standard library `atol` used at be.h:150: skip leading
blanks, read an optional sign and a longest digit prefix; a string with no
digit prefix converts to 0. -/
def atol (s : String) : Int :=
  let cs := s.toList.dropWhile (fun c => c = ' ' ∨ c = '\t')
  match cs with
  | '-' :: rest => - (digitsVal rest 0 : Int)
  | '+' :: rest => (digitsVal rest 0 : Int)
  | _ => (digitsVal cs 0 : Int)

/-- Modelled from the spec: construction of an `OrderMethod` from its name
(the `MER_ENUM` string constructor is in a header that is not part of the
sources); an unrecognized order method fails with BadConfig. -/
def parseOrderMethod (s : String) : Except MError OrderMethod :=
  if s = "MinFill" then Except.ok OrderMethod.MinFill
  else if s = "MinInduced" then Except.ok OrderMethod.MinInduced
  else if s = "WeightedMinFill" then Except.ok OrderMethod.WeightedMinFill
  else Except.error MError.BadConfig

/-- Processing of one split `Key=Value` pair (be.h:143-154): the `Order` key
re-parses the order method, the `Debug` key converts its value with `atol`
(zero means off), any other key falls to the default branch and is ignored.
Key recognition is modelled from the spec since the `MER_ENUM` dispatch is
not in the sources. -/
def applyAsgn (c : BEConfig) (asgn : List String) : Except MError BEConfig :=
  let key := asgn.getD 0 ""
  let v := asgn.getD 1 ""
  if key = "Order" then
    match parseOrderMethod v with
    | Except.ok om => Except.ok ⟨om, c.debug⟩
    | Except.error e => Except.error e
  else if key = "Debug" then
    Except.ok ⟨c.orderMethod, if atol v = 0 then false else true⟩
  else
    Except.ok c

/-- Splitting a character list at a delimiter (modelled from the spec:
`merlin::split` is not in the sources; it splits a string on a delimiter
character). -/
def splitChar (sep : Char) : List Char → List (List Char)
  | [] => [[]]
  | c :: rest =>
    match splitChar sep rest with
    | [] => [[c]]
    | w :: ws => if c = sep then [] :: w :: ws else (c :: w) :: ws

/-- Splitting a string at a delimiter character. -/
def splitStr (s : String) (sep : Char) : List String :=
  (splitChar sep s.toList).map (fun cs => String.mk cs)

/-- Processing of one raw `Key=Value` pair: split on '='. -/
def applyPair (c : BEConfig) (pair : String) : Except MError BEConfig :=
  applyAsgn c (splitStr pair '=')

/-- Translation of be::set_properties (be.h:136-156) on a non-empty option
string: split on ',' and process each pair in turn (merlin::split is not in
the sources and is modelled from the spec as delimiter splitting). -/
def setProperties (c : BEConfig) (opt : String) : Except MError BEConfig :=
  (splitStr opt ',').foldlM applyPair c

/-- The messages a chance bucket appends to the pool, as claimed: first the
Probability-tagged sum-marginal of the product of the bucket's probability
factors, then for each utility factor the Utility-tagged quotient of the
sum-marginal of `comb * F[j]` by the probability message. -/
def chanceMsgs (card : Nat → Nat) (fin : List EFactor) (ids : List Nat) (x : Nat) :
    List EFactor :=
  let phi := filterP fin ids
  let psi := filterU fin ids
  let comb := probFold fin phi
  let fmsg := setType (fsum card comb x) FType.Probability
  fmsg :: psi.map (fun j =>
    setType (fdiv (fsum card (fmul comb (fin.getD j dfltF)) x) fmsg) FType.Utility)

/-- The messages a decision bucket appends to the pool, as claimed: the
Probability-tagged slice at value 0 of each probability factor, then exactly
one Utility-tagged max-marginal of the sum of the utility factors. -/
def decisionMsgs (card : Nat → Nat) (fin : List EFactor) (ids : List Nat) (x : Nat) :
    List EFactor :=
  let phi := filterP fin ids
  let psi := filterU fin ids
  (phi.map (fun i => setType (fslice (fin.getD i dfltF) x 0) FType.Probability)) ++
  [setType (fmax card (utilFold fin psi) x) FType.Utility]

/-- Variable `z` occurs strictly after variable `x` in the order. -/
def afterInOrder (ord : List Nat) (x z : Nat) : Prop :=
  ∃ p r, ord = p ++ x :: r ∧ z ∈ r

/-- Forward-pass invariant: the pool extends the input factors, scopes stay
inside the order, every bucketed factor id sits exactly in the bucket of the
first order variable of its scope, every pool factor whose scope meets the
order is bucketed there, and the roots are exactly the empty-scoped
messages. -/
def FwdInv (m0 : Nat) (ord : List Nat) (st : BEState) : Prop :=
  m0 ≤ st.fin.length ∧
  (∀ id, id < st.fin.length → ∀ z, z ∈ scopeOf st.fin id → z ∈ ord) ∧
  (∀ y id, id ∈ st.vin y → id < st.fin.length ∧ bvar ord (scopeOf st.fin id) = some y) ∧
  (∀ id y, id < st.fin.length → bvar ord (scopeOf st.fin id) = some y → id ∈ st.vin y) ∧
  (∀ fid, fid ∈ st.roots ↔ (m0 ≤ fid ∧ fid < st.fin.length ∧ scopeOf st.fin fid = []))

/-- Conclusion of the amended bucket-residence claim at the point of the
forward pass where `p` has been processed and `r` remains: a pool factor
with non-empty scope is in a bucket exactly when that bucket belongs to the
first variable of the order appearing in its scope; the initial assignment
places exactly the input factors this way; the roots are exactly the
messages with empty scope, and a factor with empty scope resides in no
bucket at all (so an empty-scope message goes to the roots instead of any
bucket). -/
def C4prop (m : Influ) (ord p r : List Nat) : Prop :=
  (∀ id y, id < (forwardSteps m p r (stInit m ord)).fin.length →
    scopeOf (forwardSteps m p r (stInit m ord)).fin id ≠ [] →
    (id ∈ (forwardSteps m p r (stInit m ord)).vin y ↔
      bvar ord (scopeOf (forwardSteps m p r (stInit m ord)).fin id) = some y)) ∧
  (∀ id y, id ∈ (stInit m ord).vin y ↔
    (id < m.factors.length ∧ bvar ord (scopeOf m.factors id) = some y)) ∧
  (∀ fid, fid ∈ (forwardSteps m p r (stInit m ord)).roots ↔
    (m.factors.length ≤ fid ∧ fid < (forwardSteps m p r (stInit m ord)).fin.length ∧
      scopeOf (forwardSteps m p r (stInit m ord)).fin fid = [])) ∧
  (∀ id y, scopeOf (forwardSteps m p r (stInit m ord)).fin id = [] →
    id ∉ (forwardSteps m p r (stInit m ord)).vin y)

/-- Conclusion of the amended policy-scope claim for decision variable `x`:
the stored policy factor contains `x`, and each other scope variable occurs
after `x` in the elimination order or is a chance/decision variable from the
original scope of an input factor of `x`'s bucket. -/
def C6prop (m : Influ) (ord : List Nat) (x : Nat) : Prop :=
  ∃ F, (runOk m ord).policy x = some F ∧ x ∈ F.scope ∧
    ∀ z, z ∈ F.scope → z ≠ x →
      (afterInOrder ord x z ∨
        ∃ i, i ∈ (runOk m ord).finalState.vin x ∧ i < m.factors.length ∧
          z ∈ scopeOf m.factors i ∧ (m.vtype z = 'c' ∨ m.vtype z = 'd'))

/-- Conclusion of the policy-map domain claim: the policy map has an entry
exactly for the decision variables of the elimination order, and a decision
variable with an empty bucket receives the scalar `1.0 * 0.0`. -/
def C10prop (m : Influ) (ord : List Nat) : Prop :=
  (∀ x, ((runOk m ord).policy x).isSome = true ↔ (x ∈ ord ∧ m.vtype x = 'd')) ∧
  (∀ x, x ∈ ord → m.vtype x = 'd' → (runOk m ord).finalState.vin x = [] →
    (runOk m ord).policy x = some (fmul (constF 1) (constF 0)))

/-- Scenario 3 of the spec (chance-then-decision): binary chance variable 0
with P(0)=P(1)=0.5, binary decision variable 1, utility 1 on the diagonal. -/
def scen3 : Influ :=
  ⟨fun _ => 2,
   fun v => if v = 0 then 'c' else 'd',
   [⟨[0], fun _ => (1 : ℚ)/2, FType.Probability⟩,
    ⟨[0, 1], fun σ => if σ 0 = σ 1 then 1 else 0, FType.Utility⟩],
   false⟩

/-- A model flagged as a LIMID. -/
def mLimid : Influ :=
  ⟨fun _ => 2, fun _ => 'c', [], true⟩

/-- A model with a single decision variable mentioned by no factor. -/
def mEmptyD : Influ :=
  ⟨fun _ => 2, fun _ => 'd', [], false⟩

/-- A model with a single value-kind ('v') variable carrying one utility
factor. -/
def mVal : Influ :=
  ⟨fun _ => 2, fun _ => 'v', [⟨[0], fun σ => (σ 0 : ℚ), FType.Utility⟩], false⟩

/-- Assignment sending variable 0 to `c` and every other variable to `d`. -/
def asg (c d : Nat) : Nat → Nat :=
  fun v => if v = 0 then c else d

/-! Basic lemmas about scopes of the modelled factor operations. -/

theorem mem_unionL (z : Nat) (a b : List Nat) : z ∈ unionL a b ↔ z ∈ a ∨ z ∈ b := by
  simp only [unionL, List.mem_append, List.mem_filter, decide_eq_true_eq]
  constructor
  · rintro (h | ⟨h, _⟩) <;> [exact Or.inl h; exact Or.inr h]
  · rintro (h | h)
    · exact Or.inl h
    · by_cases ha : z ∈ a
      · exact Or.inl ha
      · exact Or.inr ⟨h, ha⟩

theorem scope_setType (f : EFactor) (t : FType) : (setType f t).scope = f.scope := rfl

theorem scope_fmul (f g : EFactor) : (fmul f g).scope = unionL f.scope g.scope := rfl

theorem scope_fadd (f g : EFactor) : (fadd f g).scope = unionL f.scope g.scope := rfl

theorem scope_fdiv (f g : EFactor) : (fdiv f g).scope = unionL f.scope g.scope := rfl

theorem mem_scope_fsum (card : Nat → Nat) (f : EFactor) (x z : Nat) :
    z ∈ (fsum card f x).scope ↔ z ∈ f.scope ∧ z ≠ x := by
  unfold fsum
  split
  · next hx =>
    simp only [List.mem_filter, decide_eq_true_eq]
  · next hx =>
    constructor
    · intro hz; exact ⟨hz, fun he => hx (he ▸ hz)⟩
    · exact fun h => h.1

theorem mem_scope_fmax (card : Nat → Nat) (f : EFactor) (x z : Nat) :
    z ∈ (fmax card f x).scope ↔ z ∈ f.scope ∧ z ≠ x := by
  unfold fmax
  split
  · next hx =>
    simp only [List.mem_filter, decide_eq_true_eq]
  · next hx =>
    constructor
    · intro hz; exact ⟨hz, fun he => hx (he ▸ hz)⟩
    · exact fun h => h.1

theorem mem_scope_fslice (f : EFactor) (x a z : Nat) :
    z ∈ (fslice f x a).scope ↔ z ∈ f.scope ∧ z ≠ x := by
  unfold fslice
  split
  · next hx =>
    simp only [List.mem_filter, decide_eq_true_eq]
  · next hx =>
    constructor
    · intro hz; exact ⟨hz, fun he => hx (he ▸ hz)⟩
    · exact fun h => h.1

theorem getD_mem_of_lt (l : List Nat) (i d : Nat) (h : i < l.length) : l.getD i d ∈ l := by
  rw [List.getD_eq_getElem l d h]
  exact List.getElem_mem h

theorem getDF_mem_of_lt (l : List EFactor) (i : Nat) (h : i < l.length) : l.getD i dfltF ∈ l := by
  rw [List.getD_eq_getElem l dfltF h]
  exact List.getElem_mem h

theorem find?_append_of_none {α : Type} (p : α → Bool) (l1 l2 : List α)
    (h : l1.find? p = none) : (l1 ++ l2).find? p = l2.find? p := by
  rw [List.find?_append, h, Option.none_or]

/-! Lemmas about folds over factor pools. -/

theorem foldOp_scope (op : EFactor → EFactor → EFactor)
    (hop : ∀ a b, (op a b).scope = unionL a.scope b.scope)
    (fin : List EFactor) (z : Nat) :
    ∀ (l : List Nat) (acc : EFactor),
      (z ∈ (l.foldl (fun a i => op a (fin.getD i dfltF)) acc).scope ↔
        z ∈ acc.scope ∨ ∃ i ∈ l, z ∈ scopeOf fin i) := by
  intro l
  induction l with
  | nil => intro acc; simp
  | cons j t ih =>
    intro acc
    rw [List.foldl_cons, ih, hop, mem_unionL]
    constructor
    · rintro ((h | h) | ⟨i, hi, hz⟩)
      · exact Or.inl h
      · exact Or.inr ⟨j, List.mem_cons_self j t, h⟩
      · exact Or.inr ⟨i, List.mem_cons_of_mem j hi, hz⟩
    · rintro (h | ⟨i, hi, hz⟩)
      · exact Or.inl (Or.inl h)
      · rcases List.mem_cons.mp hi with h' | h'
        · exact Or.inl (Or.inr (h' ▸ hz))
        · exact Or.inr ⟨i, h', hz⟩

theorem foldOp_getD_congr (op : EFactor → EFactor → EFactor)
    (base t : List EFactor) :
    ∀ (l : List Nat) (acc : EFactor), (∀ i ∈ l, i < base.length) →
      l.foldl (fun a i => op a ((base ++ t).getD i dfltF)) acc =
      l.foldl (fun a i => op a (base.getD i dfltF)) acc := by
  intro l
  induction l with
  | nil => intro acc _; rfl
  | cons j s ih =>
    intro acc hl
    rw [List.foldl_cons, List.foldl_cons,
      List.getD_append base t dfltF j (hl j (List.mem_cons_self j s))]
    exact ih _ (fun i hi => hl i (List.mem_cons_of_mem j hi))

theorem foldPushFin (msgf : EFactor → EFactor) (suffix : List Nat) (base : List EFactor) :
    ∀ (ids : List Nat) (t : List EFactor) (s : BEState),
      s.fin = base ++ t → (∀ i ∈ ids, i < base.length) →
      (ids.foldl (fun s j => pushMsg (msgf (s.fin.getD j dfltF)) suffix s) s).fin =
        s.fin ++ ids.map (fun j => msgf (base.getD j dfltF)) := by
  intro ids
  induction ids with
  | nil => intro t s _ _; simp
  | cons j js ih =>
    intro t s hs hlt
    rw [List.foldl_cons]
    have hj : j < base.length := hlt j (List.mem_cons_self j js)
    have hgd : s.fin.getD j dfltF = base.getD j dfltF := by
      rw [hs]; exact List.getD_append base t dfltF j hj
    have hfin1 : (pushMsg (msgf (s.fin.getD j dfltF)) suffix s).fin =
        base ++ (t ++ [msgf (base.getD j dfltF)]) := by
      rw [pushMsg, hgd, hs, List.append_assoc]
    rw [ih (t ++ [msgf (base.getD j dfltF)]) _ hfin1
      (fun i hi => hlt i (List.mem_cons_of_mem j hi))]
    rw [hfin1, hs, List.map_cons, List.append_assoc, List.append_assoc]
    simp [hgd]

theorem pushMsg_fin (g : EFactor) (suffix : List Nat) (st : BEState) :
    (pushMsg g suffix st).fin = st.fin ++ [g] := rfl

/-- Claim C1: for every chance variable processed in the forward pass with a
non-empty bucket, the engine appends first the Probability-tagged
sum-marginal of the product of the bucket's probability factors (the product
being 1.0 when there are none), then, for each utility factor of the bucket,
the Utility-tagged quotient of the sum-marginal of the product times that
factor by the probability message, in this order (be.h:310-346).  The ids of
the bucket are assumed to point into the pool, as they do in every reachable
state. -/
theorem chance_bucket_appends (m : Influ) (x : Nat) (suffix : List Nat) (st : BEState)
    (hc : m.vtype x = 'c') (hne : st.vin x ≠ [])
    (hlt : ∀ i ∈ st.vin x, i < st.fin.length) :
    (stepVar m x suffix st).fin = st.fin ++ chanceMsgs m.card st.fin (st.vin x) x := by
  have hpsi : ∀ i ∈ filterU st.fin (st.vin x), i < st.fin.length := by
    intro i hi
    exact hlt i (List.mem_of_mem_filter hi)
  unfold stepVar chanceStep
  rw [if_neg hne, if_pos hc]
  refine Eq.trans
    (foldPushFin
      (fun F => setType
        (fdiv (fsum m.card (fmul (probFold st.fin (filterP st.fin (st.vin x))) F) x)
          (setType (fsum m.card (probFold st.fin (filterP st.fin (st.vin x))) x)
            FType.Probability)) FType.Utility)
      suffix st.fin (filterU st.fin (st.vin x)) [_] _ rfl hpsi) ?_
  unfold chanceMsgs
  simp [pushMsg, List.append_assoc]

/-- Witness for C1: the chance bucket of variable 0 in scenario 3 under the
order [0, 1]. -/
theorem chance_bucket_appends_wit :
    scen3.vtype 0 = 'c' ∧ (stInit scen3 [0, 1]).vin 0 ≠ [] ∧
    (∀ i ∈ (stInit scen3 [0, 1]).vin 0, i < (stInit scen3 [0, 1]).fin.length) ∧
    (stepVar scen3 0 [1] (stInit scen3 [0, 1])).fin =
      (stInit scen3 [0, 1]).fin ++
        chanceMsgs scen3.card (stInit scen3 [0, 1]).fin ((stInit scen3 [0, 1]).vin 0) 0 :=
  ⟨by decide, by decide, by decide,
   chance_bucket_appends scen3 0 [1] (stInit scen3 [0, 1]) (by decide) (by decide) (by decide)⟩

/-- Claim C2: for every decision variable processed in the forward pass with a
non-empty bucket, the engine appends a Probability-tagged slice at value 0
of each probability factor of the bucket, followed by exactly one
Utility-tagged message, the max-marginal of the entrywise sum of the
bucket's utility factors (0.0 when there are none); the probability factors
are not multiplied into that message (be.h:347-380). -/
theorem decision_bucket_appends (m : Influ) (x : Nat) (suffix : List Nat) (st : BEState)
    (hd : m.vtype x = 'd') (hne : st.vin x ≠ [])
    (hlt : ∀ i ∈ st.vin x, i < st.fin.length) :
    (stepVar m x suffix st).fin = st.fin ++ decisionMsgs m.card st.fin (st.vin x) x := by
  have hphi : ∀ i ∈ filterP st.fin (st.vin x), i < st.fin.length := by
    intro i hi
    exact hlt i (List.mem_of_mem_filter hi)
  have hpsi : ∀ i ∈ filterU st.fin (st.vin x), i < st.fin.length := by
    intro i hi
    exact hlt i (List.mem_of_mem_filter hi)
  unfold stepVar decisionStep
  rw [if_neg hne, if_neg (by rw [hd]; decide), if_pos hd]
  have h1 : (List.foldl
      (fun s i => pushMsg (setType (fslice (s.fin.getD i dfltF) x 0) FType.Probability) suffix s)
      st (filterP st.fin (st.vin x))).fin =
      st.fin ++ (filterP st.fin (st.vin x)).map
        (fun i => setType (fslice (st.fin.getD i dfltF) x 0) FType.Probability) :=
    foldPushFin (fun F => setType (fslice F x 0) FType.Probability) suffix st.fin
      (filterP st.fin (st.vin x)) [] st (List.append_nil _).symm hphi
  have h2 : utilFold (st.fin ++ (filterP st.fin (st.vin x)).map
        (fun i => setType (fslice (st.fin.getD i dfltF) x 0) FType.Probability))
      (filterU st.fin (st.vin x)) = utilFold st.fin (filterU st.fin (st.vin x)) :=
    foldOp_getD_congr fadd st.fin _ (filterU st.fin (st.vin x)) (constF 0) hpsi
  rw [pushMsg_fin, h1, h2]
  unfold decisionMsgs
  simp [List.append_assoc]

/-- Witness for C2: the decision bucket of variable 1 in scenario 3 under
the order [1, 0]. -/
theorem decision_bucket_appends_wit :
    scen3.vtype 1 = 'd' ∧ (stInit scen3 [1, 0]).vin 1 ≠ [] ∧
    (∀ i ∈ (stInit scen3 [1, 0]).vin 1, i < (stInit scen3 [1, 0]).fin.length) ∧
    (stepVar scen3 1 [0] (stInit scen3 [1, 0])).fin =
      (stInit scen3 [1, 0]).fin ++
        decisionMsgs scen3.card (stInit scen3 [1, 0]).fin ((stInit scen3 [1, 0]).vin 1) 1 :=
  ⟨by decide, by decide, by decide,
   decision_bucket_appends scen3 1 [0] (stInit scen3 [1, 0]) (by decide) (by decide) (by decide)⟩

theorem pairFoldSplit (fin : List EFactor) :
    ∀ (ids : List Nat) (P0 U0 : EFactor),
      ids.foldl
        (fun (pu : EFactor × EFactor) i =>
          match (fin.getD i dfltF).ftype with
          | FType.Probability => (fmul pu.1 (fin.getD i dfltF), pu.2)
          | FType.Utility => (pu.1, fadd pu.2 (fin.getD i dfltF)))
        (P0, U0) =
      ((filterP fin ids).foldl (fun a i => fmul a (fin.getD i dfltF)) P0,
       (filterU fin ids).foldl (fun a i => fadd a (fin.getD i dfltF)) U0) := by
  intro ids
  induction ids with
  | nil => intro P0 U0; rfl
  | cons j t ih =>
    intro P0 U0
    cases hft : (fin.getD j dfltF).ftype with
    | Probability =>
      simp only [filterP, filterU, List.foldl_cons, List.filter_cons, hft, FType.isProb,
        FType.isUtil, if_true, if_false, List.foldl_cons]
      exact ih (fmul P0 (fin.getD j dfltF)) U0
    | Utility =>
      simp only [filterP, filterU, List.foldl_cons, List.filter_cons, hft, FType.isProb,
        FType.isUtil, if_true, if_false, List.foldl_cons]
      exact ih P0 (fadd U0 (fin.getD j dfltF))

theorem policyPU_eq (fin : List EFactor) (ids : List Nat) :
    policyPU fin ids = fmul (probProd fin ids) (utilSum fin ids) := by
  unfold policyPU probProd utilSum probFold utilFold
  rw [pairFoldSplit]

theorem backward_mem (m : Influ) (fin : List EFactor) (vin : Nat → List Nat) (x : Nat)
    (hd : m.vtype x = 'd') :
    ∀ (l : List Nat) (pol0 : Nat → Option EFactor),
      (x ∈ l ∨ pol0 x = some (policyPU fin (vin x))) →
      (backwardPass m fin vin l pol0) x = some (policyPU fin (vin x)) := by
  intro l
  induction l with
  | nil =>
    intro pol0 h
    rcases h with h | h
    · cases h
    · exact h
  | cons y t ih =>
    intro pol0 h
    unfold backwardPass
    by_cases hy : m.vtype y = 'd'
    · rw [if_pos hy]
      apply ih
      by_cases hxy : x = y
      · right; subst hxy; simp
      · rcases h with h | h
        · rcases List.mem_cons.mp h with h' | h'
          · exact absurd h' hxy
          · exact Or.inl h'
        · right; simpa [hxy] using h
    · rw [if_neg hy]
      apply ih
      rcases h with h | h
      · rcases List.mem_cons.mp h with h' | h'
        · exact absurd (h' ▸ hd) hy
        · exact Or.inl h'
      · exact Or.inr h

theorem backward_skip (m : Influ) (fin : List EFactor) (vin : Nat → List Nat) (x : Nat) :
    ∀ (l : List Nat) (pol0 : Nat → Option EFactor),
      (x ∉ l ∨ m.vtype x ≠ 'd') →
      (backwardPass m fin vin l pol0) x = pol0 x := by
  intro l
  induction l with
  | nil => intro pol0 _; rfl
  | cons y t ih =>
    intro pol0 h
    unfold backwardPass
    by_cases hy : m.vtype y = 'd'
    · rw [if_pos hy]
      have hxy : x ≠ y ∨ m.vtype x ≠ 'd' := by
        rcases h with h | h
        · exact Or.inl (fun he => h (he ▸ List.mem_cons_self y t))
        · exact Or.inr h
      have htail : x ∉ t ∨ m.vtype x ≠ 'd' := by
        rcases h with h | h
        · exact Or.inl (fun ht => h (List.mem_cons_of_mem y ht))
        · exact Or.inr h
      have hne : x ≠ y := by
        intro he
        subst he
        rcases h with h | h
        · exact h (List.mem_cons_self x t)
        · exact h hy
      rw [ih _ htail]
      simp [hne]
    · rw [if_neg hy]
      apply ih
      rcases h with h | h
      · exact Or.inl (fun ht => h (List.mem_cons_of_mem y ht))
      · exact Or.inr h

/-- Claim C3: in the backward pass, every decision variable of the elimination
order receives the policy factor P * U, where P is the product of the
Probability-tagged factors of its bucket at backward-visit time (1.0 when
none) and U is the entrywise sum of its Utility-tagged factors (0.0 when
none) (be.h:413-437; the elimination order is a permutation of the model's
variables, so the decision variables of the order are those of the model). -/
theorem backward_policy_product (m : Influ) (ord : List Nat) (x : Nat)
    (hx : x ∈ ord) (hd : m.vtype x = 'd') :
    (runOk m ord).policy x =
      some (fmul
        (probProd (runOk m ord).finalState.fin ((runOk m ord).finalState.vin x))
        (utilSum (runOk m ord).finalState.fin ((runOk m ord).finalState.vin x))) := by
  unfold runOk
  rw [← policyPU_eq]
  exact backward_mem m _ _ x hd ord.reverse _ (Or.inl (List.mem_reverse.mpr hx))

/-- Witness for C3: decision variable 1 of scenario 3 under the order [1, 0]. -/
theorem backward_policy_product_wit :
    (1 ∈ ([1, 0] : List Nat)) ∧ scen3.vtype 1 = 'd' ∧
    (runOk scen3 [1, 0]).policy 1 =
      some (fmul
        (probProd (runOk scen3 [1, 0]).finalState.fin ((runOk scen3 [1, 0]).finalState.vin 1))
        (utilSum (runOk scen3 [1, 0]).finalState.fin ((runOk scen3 [1, 0]).finalState.vin 1))) :=
  ⟨by decide, by decide, backward_policy_product scen3 [1, 0] 1 (by decide) (by decide)⟩

/-- Claim C10: the policy map built by the backward pass has an entry exactly for
the decision variables of the elimination order; a decision variable whose
bucket is empty at backward-visit time is not skipped and receives the
scalar factor 1.0 * 0.0 (be.h:413-437). -/
theorem policy_map_total (m : Influ) (ord : List Nat) : C10prop m ord := by
  constructor
  · intro x
    by_cases hd : m.vtype x = 'd'
    · by_cases hx : x ∈ ord
      · have h := backward_mem m (forwardSteps m ord [] (stInit m ord)).fin
          (forwardSteps m ord [] (stInit m ord)).vin x hd ord.reverse (fun _ => none)
          (Or.inl (List.mem_reverse.mpr hx))
        unfold runOk
        simp [h, hx, hd]
      · have h := backward_skip m (forwardSteps m ord [] (stInit m ord)).fin
          (forwardSteps m ord [] (stInit m ord)).vin x ord.reverse (fun _ => none)
          (Or.inl (fun hm => hx (List.mem_reverse.mp hm)))
        unfold runOk
        simp [h, hx]
    · have h := backward_skip m (forwardSteps m ord [] (stInit m ord)).fin
        (forwardSteps m ord [] (stInit m ord)).vin x ord.reverse (fun _ => none)
        (Or.inr hd)
      unfold runOk
      simp [h, hd]
  · intro x hx hd hvin
    have h := backward_mem m (forwardSteps m ord [] (stInit m ord)).fin
      (forwardSteps m ord [] (stInit m ord)).vin x hd ord.reverse (fun _ => none)
      (Or.inl (List.mem_reverse.mpr hx))
    simp only [runOk] at hvin ⊢
    rw [h, hvin]
    rfl

/-- Witness for C10: the decision variable 0 of a model without factors has
an empty bucket and still receives the scalar policy 1.0 * 0.0. -/
theorem policy_map_total_wit :
    (0 ∈ ([0] : List Nat) ∧ mEmptyD.vtype 0 = 'd' ∧
      (runOk mEmptyD [0]).finalState.vin 0 = []) ∧
    (runOk mEmptyD [0]).policy 0 = some (fmul (constF 1) (constF 0)) :=
  ⟨⟨by decide, by decide, by decide⟩,
   (policy_map_total mEmptyD [0]).2 0 (by decide) (by decide) (by decide)⟩

/-- Counterexample to C5: running the engine on scenario 3 with elimination
order [C, D] = [0, 1] as the claim states yields MEU 1/2, not 1.0, and a
policy for D over {D} alone with entries [1/2, 1/2]: eliminating the chance
variable first corresponds to an unobserved decision (scenario 4 of the
spec). -/
theorem scen3_orderCD_cex :
    run scen3 [0, 1] = Except.ok (runOk scen3 [0, 1]) ∧
    (runOk scen3 [0, 1]).meu = (1 : ℚ)/2 ∧
    (runOk scen3 [0, 1]).meu ≠ 1 ∧
    ((runOk scen3 [0, 1]).policy 1).map
      (fun F => (F.scope, F.val (asg 0 0), F.val (asg 0 1))) =
      some ([1], (1 : ℚ)/2, (1 : ℚ)/2) :=
  ⟨rfl, by with_unfolding_all decide, by with_unfolding_all decide,
   by with_unfolding_all decide⟩

/-- Claim C5, amended: on scenario 3 the MEU 1.0 and the diagonal policy over
{C, D} are produced by the elimination order [D, C] = [1, 0], which
eliminates the decision first (the reverse of the observation order). -/
theorem scen3_orderDC_meu :
    run scen3 [1, 0] = Except.ok (runOk scen3 [1, 0]) ∧
    (runOk scen3 [1, 0]).meu = 1 ∧
    ((runOk scen3 [1, 0]).policy 1).map
      (fun F => (F.scope, F.val (asg 0 0), F.val (asg 0 1), F.val (asg 1 0), F.val (asg 1 1))) =
      some ([0, 1], 1, 0, 0, 1) :=
  ⟨rfl, by with_unfolding_all decide, by with_unfolding_all decide⟩

/-- Counterexample to C7: a value-kind ('v') variable with a non-empty
bucket of one utility factor produces no message at all: the pool keeps its
single factor, whereas the claimed chance-like treatment would append the
sum-marginalized utility message. -/
theorem value_bucket_cex :
    mVal.vtype 0 = 'v' ∧ (stInit mVal [0]).vin 0 ≠ [] ∧
    (stepVar mVal 0 [] (stInit mVal [0])).fin.length = 1 ∧
    ¬ ((stepVar mVal 0 [] (stInit mVal [0])).fin =
      (stInit mVal [0]).fin ++
        [setType (fsum mVal.card (utilFold (stInit mVal [0]).fin ((stInit mVal [0]).vin 0)) 0)
          FType.Utility]) := by
  refine ⟨by decide, by decide, by decide, ?_⟩
  intro h
  have h1 : (stepVar mVal 0 [] (stInit mVal [0])).fin.length = 1 := by decide
  have h2 : ((stInit mVal [0]).fin ++
      [setType (fsum mVal.card (utilFold (stInit mVal [0]).fin ((stInit mVal [0]).vin 0)) 0)
        FType.Utility]).length = 2 := by decide
  rw [h, h2] at h1
  cases h1

/-- Claim C7, amended: the forward pass has processing branches only for chance
('c') and decision ('d') variables; a bucket of a value-kind ('v') variable
is skipped without producing any message (be.h:310-380 has no third
branch). -/
theorem value_bucket_skip (m : Influ) (x : Nat) (suffix : List Nat) (st : BEState)
    (hv : m.vtype x = 'v') : stepVar m x suffix st = st := by
  unfold stepVar
  by_cases hne : st.vin x = []
  · rw [if_pos hne]
  · rw [if_neg hne, if_neg (by rw [hv]; decide), if_neg (by rw [hv]; decide)]

/-- Witness for the amended C7: the value-kind bucket of the model `mVal`. -/
theorem value_bucket_skip_wit :
    mVal.vtype 0 = 'v' ∧ stepVar mVal 0 [] (stInit mVal [0]) = stInit mVal [0] :=
  ⟨by decide, value_bucket_skip mVal 0 [] (stInit mVal [0]) (by decide)⟩

/-- Claim C8: a model with the LIMID flag set makes `run` fail with
UnsupportedModel (the check is the first act of `be::init`, be.h:185-189,
before any bucket is built), and no result is made available. -/
theorem limid_rejected (m : Influ) (ord : List Nat) (h : m.islimid = true) :
    run m ord = Except.error MError.UnsupportedModel ∧
    ∀ r, run m ord ≠ Except.ok r := by
  have he : run m ord = Except.error MError.UnsupportedModel := by
    unfold run
    rw [h]
    simp
  refine ⟨he, ?_⟩
  intro r hr
  rw [he] at hr
  cases hr

/-- Witness for C8: the concrete LIMID-flagged model. -/
theorem limid_rejected_wit :
    mLimid.islimid = true ∧ run mLimid [0] = Except.error MError.UnsupportedModel :=
  ⟨by decide, (limid_rejected mLimid [0] (by decide)).1⟩

/-- Counterexample to C9: the pair `Debug=abc` has a malformed (non-numeric)
value, yet parsing does not fail with BadConfig: `atol` converts the value
to 0 and the debug flag is simply switched off (be.h:150). -/
theorem debug_value_cex :
    setProperties ⟨OrderMethod.MinFill, true⟩ "Debug=abc" =
      Except.ok ⟨OrderMethod.MinFill, false⟩ ∧
    setProperties ⟨OrderMethod.MinFill, true⟩ "Debug=abc" ≠
      Except.error MError.BadConfig := by
  have h1 : setProperties ⟨OrderMethod.MinFill, true⟩ "Debug=abc" =
      Except.ok ⟨OrderMethod.MinFill, false⟩ := rfl
  refine ⟨h1, ?_⟩
  rw [h1]
  intro hc
  cases hc

/-- Claim C9, amended: pairs with an unrecognized key are ignored, an `Order` pair
with an unrecognized method value fails with BadConfig, and a `Debug` pair
never fails: its value goes through `atol`, so a malformed value counts as
0 and turns the debug flag off. -/
theorem config_pairs_amended (c : BEConfig) (k v : String)
    (hk1 : k ≠ "Order") (hk2 : k ≠ "Debug")
    (hbad : parseOrderMethod v = Except.error MError.BadConfig) :
    applyAsgn c [k, v] = Except.ok c ∧
    applyAsgn c ["Order", v] = Except.error MError.BadConfig ∧
    (∀ w, applyAsgn c ["Debug", w] =
      Except.ok ⟨c.orderMethod, if atol w = 0 then false else true⟩) := by
  refine ⟨?_, ?_, ?_⟩
  · simp only [applyAsgn, List.getD_cons_zero, List.getD_cons_succ]
    rw [if_neg hk1, if_neg hk2]
  · simp only [applyAsgn, List.getD_cons_zero, List.getD_cons_succ]
    rw [if_pos trivial, hbad]
  · intro w
    simp only [applyAsgn, List.getD_cons_zero, List.getD_cons_succ]
    rw [if_neg (by decide : ¬("Debug" : String) = "Order"), if_pos trivial]

/-- Witness for the amended C9: the unknown key `Foo` and the unrecognized
method `Bogus`. -/
theorem config_pairs_amended_wit :
    (("Foo" : String) ≠ "Order" ∧ ("Foo" : String) ≠ "Debug" ∧
      parseOrderMethod "Bogus" = Except.error MError.BadConfig) ∧
    (applyAsgn ⟨OrderMethod.MinFill, true⟩ ["Foo", "Bogus"] =
        Except.ok ⟨OrderMethod.MinFill, true⟩ ∧
      applyAsgn ⟨OrderMethod.MinFill, true⟩ ["Order", "Bogus"] =
        Except.error MError.BadConfig ∧
      (∀ w, applyAsgn ⟨OrderMethod.MinFill, true⟩ ["Debug", w] =
        Except.ok ⟨OrderMethod.MinFill, if atol w = 0 then false else true⟩)) :=
  ⟨⟨by decide, by decide, rfl⟩,
   config_pairs_amended ⟨OrderMethod.MinFill, true⟩ "Foo" "Bogus"
     (by decide) (by decide) rfl⟩

/-- Counterexample to C6: a decision variable in no factor's scope has an
empty bucket; its stored policy is the scalar 1.0 * 0.0, whose scope does
not contain the decision; so `policy[x]` need not have `x` in its scope. -/
theorem policy_scope_cex :
    mEmptyD.vtype 0 = 'd' ∧ (0 ∈ ([0] : List Nat)) ∧
    ((runOk mEmptyD [0]).policy 0).map EFactor.scope = some [] ∧
    ¬ (∃ F, (runOk mEmptyD [0]).policy 0 = some F ∧ 0 ∈ F.scope) := by
  refine ⟨by decide, by decide, rfl, ?_⟩
  rintro ⟨F, hF, hmem⟩
  have h := congrArg (Option.map EFactor.scope) hF
  have h0 : ((runOk mEmptyD [0]).policy 0).map EFactor.scope = some [] := rfl
  rw [h0] at h
  injection h with h'
  rw [← h'] at hmem
  cases hmem

/-- Counterexample to C4: after the chance bucket of variable 0 in scenario
3 under order [0, 1] has been processed, input factor 1 (scope {0, 1}) has
non-empty scope containing the not-yet-eliminated variable 1, whose bucket
is where the claim places it; but it still resides in bucket 0 and not in
bucket 1: processed buckets are never emptied. -/
theorem bucket_residence_cex :
    (1 ∈ (stepVar scen3 0 [1] (stInit scen3 [0, 1])).vin 0) ∧
    (1 ∉ (stepVar scen3 0 [1] (stInit scen3 [0, 1])).vin 1) ∧
    scopeOf (stepVar scen3 0 [1] (stInit scen3 [0, 1])).fin 1 = [0, 1] ∧
    bvar [1] (scopeOf (stepVar scen3 0 [1] (stInit scen3 [0, 1])).fin 1) = some 1 := by
  decide

theorem markFold (fin : List EFactor) (x : Nat) :
    ∀ (L : List Nat), L.Nodup → ∀ (acc : (Nat → List Nat) × (Nat → Bool)),
      (∀ j, (L.foldl (markFactor fin x) acc).2 j = true ↔
        (acc.2 j = true ∨ (j ∈ L ∧ x ∈ scopeOf fin j))) ∧
      (∀ j y, j ∈ (L.foldl (markFactor fin x) acc).1 y ↔
        (j ∈ acc.1 y ∨ (y = x ∧ j ∈ L ∧ acc.2 j = false ∧ x ∈ scopeOf fin j))) := by
  intro L
  induction L with
  | nil =>
    intro _ acc
    constructor
    · intro j; simp
    · intro j y; simp
  | cons i L' ih =>
    intro hnd acc
    have hiL : i ∉ L' := (List.nodup_cons.mp hnd).1
    have hnd' : L'.Nodup := (List.nodup_cons.mp hnd).2
    rw [List.foldl_cons]
    obtain ⟨ihU, ihV⟩ := ih hnd' (markFactor fin x acc i)
    have hU2t : ∀ j, (markFactor fin x acc i).2 j = true ↔
        (acc.2 j = true ∨ (j = i ∧ acc.2 i = false ∧ x ∈ scopeOf fin i)) := by
      intro j
      unfold markFactor
      split
      · next hg =>
        show (if j = i then true else acc.2 j) = true ↔ _
        by_cases hji : j = i
        · subst hji
          rw [if_pos rfl]
          simp [hg.1, hg.2]
        · rw [if_neg hji]
          simp [hji]
      · next hg =>
        constructor
        · exact fun h => Or.inl h
        · rintro (h | ⟨_, h2, h3⟩)
          · exact h
          · exact absurd ⟨h2, h3⟩ hg
    have hU2f : ∀ j, (markFactor fin x acc i).2 j = false ↔
        (acc.2 j = false ∧ ¬(j = i ∧ acc.2 i = false ∧ x ∈ scopeOf fin i)) := by
      intro j
      have h1 := hU2t j
      constructor
      · intro hf
        have hnt : ¬((markFactor fin x acc i).2 j = true) := by
          rw [hf]; exact Bool.false_ne_true
        rw [h1] at hnt
        push_neg at hnt
        refine ⟨?_, ?_⟩
        · cases hb : acc.2 j
          · rfl
          · exact absurd hb hnt.1
        · rintro ⟨he, h2, h3⟩
          exact hnt.2 he h2 h3
      · rintro ⟨h2, h3⟩
        cases hb : (markFactor fin x acc i).2 j
        · rfl
        · rw [h1] at hb
          rcases hb with hb | hb
          · rw [h2] at hb; exact absurd hb Bool.false_ne_true
          · exact absurd hb h3
    have hV2 : ∀ j y, j ∈ (markFactor fin x acc i).1 y ↔
        (j ∈ acc.1 y ∨ (y = x ∧ j = i ∧ acc.2 i = false ∧ x ∈ scopeOf fin i)) := by
      intro j y
      unfold markFactor
      split
      · next hg =>
        show j ∈ (if y = x then acc.1 y ++ [i] else acc.1 y) ↔ _
        by_cases hyx : y = x
        · rw [if_pos hyx, List.mem_append, List.mem_singleton]
          constructor
          · rintro (h | h)
            · exact Or.inl h
            · exact Or.inr ⟨hyx, h, hg.1, hg.2⟩
          · rintro (h | ⟨_, hji, _, _⟩)
            · exact Or.inl h
            · exact Or.inr hji
        · rw [if_neg hyx]
          constructor
          · exact fun h => Or.inl h
          · rintro (h | ⟨hyx', _, _, _⟩)
            · exact h
            · exact absurd hyx' hyx
      · next hg =>
        constructor
        · exact fun h => Or.inl h
        · rintro (h | ⟨_, _, h2, h3⟩)
          · exact h
          · exact absurd ⟨h2, h3⟩ hg
    constructor
    · intro j
      rw [ihU j, hU2t j]
      constructor
      · rintro ((h | ⟨hji, _, hs⟩) | ⟨hL, hs⟩)
        · exact Or.inl h
        · subst hji
          exact Or.inr ⟨List.mem_cons_self j L', hs⟩
        · exact Or.inr ⟨List.mem_cons_of_mem i hL, hs⟩
      · rintro (h | ⟨hm, hs⟩)
        · exact Or.inl (Or.inl h)
        · rcases List.mem_cons.mp hm with he | hL
          · subst he
            by_cases hb : acc.2 j = true
            · exact Or.inl (Or.inl hb)
            · have hb' : acc.2 j = false := by
                cases hbb : acc.2 j
                · rfl
                · exact absurd hbb hb
              exact Or.inl (Or.inr ⟨rfl, hb', hs⟩)

          · exact Or.inr ⟨hL, hs⟩
    · intro j y
      rw [ihV j y, hV2 j y]
      constructor
      · rintro ((h | ⟨hyx, hji, hf, hs⟩) | ⟨hyx, hL, hm, hs⟩)
        · exact Or.inl h
        · subst hji
          exact Or.inr ⟨hyx, List.mem_cons_self j L', hf, hs⟩
        · have hf : acc.2 j = false := ((hU2f j).mp hm).1
          exact Or.inr ⟨hyx, List.mem_cons_of_mem i hL, hf, hs⟩
      · rintro (h | ⟨hyx, hm, hf, hs⟩)
        · exact Or.inl (Or.inl h)
        · rcases List.mem_cons.mp hm with he | hL
          · subst he
            exact Or.inl (Or.inr ⟨hyx, rfl, hf, hs⟩)
          · refine Or.inr ⟨hyx, hL, ?_, hs⟩
            refine (hU2f j).mpr ⟨hf, ?_⟩
            rintro ⟨he, _, _⟩
            exact hiL (he ▸ hL)

theorem bvar_append (p q s : List Nat) :
    bvar (p ++ q) s = (bvar p s).or (bvar q s) := by
  unfold bvar
  exact List.find?_append

theorem bvar_single (x : Nat) (s : List Nat) :
    bvar [x] s = if x ∈ s then some x else none := by
  by_cases h : x ∈ s
  · simp [bvar, List.find?, h]
  · simp [bvar, List.find?, h]

theorem bvar_some_mem (ord s : List Nat) (y : Nat) (h : bvar ord s = some y) :
    y ∈ s ∧ y ∈ ord := by
  constructor
  · have := List.find?_some h
    simpa using this
  · exact List.mem_of_find?_eq_some h

theorem bvar_none (ord s : List Nat) : bvar ord s = none ↔ ∀ z ∈ ord, z ∉ s := by
  unfold bvar
  rw [List.find?_eq_none]
  simp

theorem ordFold (fin : List EFactor) :
    ∀ (q p : List Nat) (acc : (Nat → List Nat) × (Nat → Bool)),
      (∀ j, acc.2 j = true ↔ (j < fin.length ∧ ∃ z ∈ p, z ∈ scopeOf fin j)) →
      (∀ j y, j ∈ acc.1 y ↔ (j < fin.length ∧ bvar p (scopeOf fin j) = some y)) →
      (∀ j y, j ∈ (q.foldl (markStep fin) acc).1 y ↔
        (j < fin.length ∧ bvar (p ++ q) (scopeOf fin j) = some y)) := by
  intro q
  induction q with
  | nil =>
    intro p acc hU hV j y
    rw [List.foldl_nil, List.append_nil]
    exact hV j y
  | cons x q' ih =>
    intro p acc hU hV j y
    rw [List.foldl_cons]
    obtain ⟨mU, mV⟩ := markFold fin x (List.range fin.length) (List.nodup_range _) acc
    have hU' : ∀ j, (markStep fin acc x).2 j = true ↔
        (j < fin.length ∧ ∃ z ∈ p ++ [x], z ∈ scopeOf fin j) := by
      intro j
      show ((List.range fin.length).foldl (markFactor fin x) acc).2 j = true ↔ _
      rw [mU j, hU j]
      constructor
      · rintro (⟨hlen, z, hz, hzs⟩ | ⟨hr, hs⟩)
        · exact ⟨hlen, z, List.mem_append.mpr (Or.inl hz), hzs⟩
        · exact ⟨List.mem_range.mp hr, x,
            List.mem_append.mpr (Or.inr (List.mem_singleton.mpr rfl)), hs⟩
      · rintro ⟨hlen, z, hz, hzs⟩
        rcases List.mem_append.mp hz with hz | hz
        · exact Or.inl ⟨hlen, z, hz, hzs⟩
        · right
          rw [List.mem_singleton] at hz
          subst hz
          exact ⟨List.mem_range.mpr hlen, hzs⟩
    have hV' : ∀ j y, j ∈ (markStep fin acc x).1 y ↔
        (j < fin.length ∧ bvar (p ++ [x]) (scopeOf fin j) = some y) := by
      intro j y
      show j ∈ ((List.range fin.length).foldl (markFactor fin x) acc).1 y ↔ _
      rw [mV j y, hV j y, bvar_append]
      cases hb : bvar p (scopeOf fin j) with
      | some y0 =>
        have hor : (Option.some y0).or (bvar [x] (scopeOf fin j)) = some y0 := rfl
        rw [hor]
        constructor
        · rintro (⟨hlen, he⟩ | ⟨hyx, hr, hf, hs⟩)
          · exact ⟨hlen, he⟩
          · exfalso
            have hmem := bvar_some_mem p _ y0 hb
            have ht : acc.2 j = true := (hU j).mpr ⟨List.mem_range.mp hr, y0, hmem.2, hmem.1⟩
            rw [hf] at ht
            exact Bool.false_ne_true ht
        · rintro ⟨hlen, he⟩
          exact Or.inl ⟨hlen, he⟩
      | none =>
        rw [Option.none_or, bvar_single]
        have hnone := (bvar_none p (scopeOf fin j)).mp hb
        constructor
        · rintro (⟨hlen, he⟩ | ⟨hyx, hr, hf, hs⟩)
          · exact absurd he (by simp)
          · subst hyx
            rw [if_pos hs]
            exact ⟨List.mem_range.mp hr, rfl⟩
        · rintro ⟨hlen, he⟩
          by_cases hs : x ∈ scopeOf fin j
          · rw [if_pos hs] at he
            injection he with he'
            right
            refine ⟨he'.symm, List.mem_range.mpr hlen, ?_, hs⟩
            cases hbb : acc.2 j
            · rfl
            · exfalso
              obtain ⟨_, z, hz, hzs⟩ := (hU j).mp hbb
              exact hnone z hz hzs
          · rw [if_neg hs] at he
            cases he
    have h := ih (p ++ [x]) (markStep fin acc x) hU' hV' j y
    rw [List.append_assoc] at h
    exact h

theorem initChar (fin : List EFactor) (ord : List Nat) (j y : Nat) :
    j ∈ initBuckets fin ord y ↔ (j < fin.length ∧ bvar ord (scopeOf fin j) = some y) := by
  have hU0 : ∀ j, (fun (_ : Nat) => false) j = true ↔
      (j < fin.length ∧ ∃ z ∈ ([] : List Nat), z ∈ scopeOf fin j) := by
    intro j
    constructor
    · intro h; cases h
    · rintro ⟨_, z, hz, _⟩; cases hz
  have h := ordFold fin ord [] (fun _ => [], fun _ => false) hU0
    (by
      intro j y
      constructor
      · intro h; cases h
      · rintro ⟨_, hb⟩
        exact absurd hb (by simp [bvar, List.find?]))
    j y
  rw [List.nil_append] at h
  exact h

theorem mem_insertAdj (vin : Nat → List Nat) (fid : Nat) (f : EFactor) (suffix : List Nat)
    (id y : Nat) :
    id ∈ insertAdj vin fid f suffix y ↔
      (id ∈ vin y ∨ (id = fid ∧ suffix.find? (fun z => decide (z ∈ f.scope)) = some y)) := by
  unfold insertAdj
  cases hf : suffix.find? (fun z => decide (z ∈ f.scope)) with
  | none => simp
  | some y0 =>
    by_cases hyy : y = y0
    · subst hyy
      show id ∈ (if y = y then vin y ++ [fid] else vin y) ↔ _
      rw [if_pos rfl, List.mem_append, List.mem_singleton]
      simp
    · show id ∈ (if y = y0 then vin y ++ [fid] else vin y) ↔ _
      rw [if_neg hyy]
      constructor
      · exact fun h => Or.inl h
      · rintro (h | ⟨_, he⟩)
        · exact h
        · injection he with he'
          exact absurd he'.symm hyy

theorem getD_append_len (l : List EFactor) (g : EFactor) :
    (l ++ [g]).getD l.length dfltF = g := by
  induction l with
  | nil => rfl
  | cons a t ih => simp [ih]

theorem bvar_suffix (p r' : List Nat) (x : Nat) (s : List Nat)
    (hp : ∀ z ∈ p, z ∉ s) (hx : x ∉ s) :
    bvar (p ++ x :: r') s = bvar r' s := by
  unfold bvar
  rw [find?_append_of_none _ _ _ (List.find?_eq_none.mpr (by

    intro z hz
    simpa using hp z hz))]
  simp [List.find?, hx]

theorem pushMsg_vin (g : EFactor) (suffix : List Nat) (st : BEState) :
    (pushMsg g suffix st).vin = insertAdj st.vin st.fin.length g suffix := rfl

theorem pushMsg_roots (g : EFactor) (suffix : List Nat) (st : BEState) :
    (pushMsg g suffix st).roots =
      (if g.scope.length = 0 then st.roots ++ [st.fin.length] else st.roots) := rfl

theorem pushMsg_inv (m0 : Nat) (ord : List Nat) (st : BEState) (g : EFactor)
    (p r' : List Nat) (x : Nat)
    (hord : ord = p ++ x :: r') (hnd : ord.Nodup)
    (hinv : FwdInv m0 ord st)
    (hsc : ∀ z ∈ g.scope, z ∈ r') :
    FwdInv m0 ord (pushMsg g r' st) := by
  obtain ⟨h0, h1, h2, h3, h4⟩ := hinv
  have hnd' := hnd
  rw [hord, List.nodup_append] at hnd'
  have hxr : x ∉ r' := (List.nodup_cons.mp hnd'.2.1).1
  have hdisj : ∀ z ∈ p, z ∉ x :: r' := hnd'.2.2
  have hstable : ∀ id, id < st.fin.length →
      scopeOf (st.fin ++ [g]) id = scopeOf st.fin id := by
    intro id hid
    unfold scopeOf
    rw [List.getD_append _ _ _ _ hid]
  have hnewscope : scopeOf (st.fin ++ [g]) st.fin.length = g.scope := by
    unfold scopeOf
    rw [getD_append_len]
  have hgnotp : ∀ z ∈ p, z ∉ g.scope := by
    intro z hz hzg
    exact hdisj z hz (List.mem_cons_of_mem x (hsc z hzg))
  have hgnotx : x ∉ g.scope := fun hxg => hxr (hsc x hxg)
  have hbvar_g : bvar ord g.scope = bvar r' g.scope := by
    rw [hord]
    exact bvar_suffix p r' x g.scope hgnotp hgnotx
  unfold FwdInv
  rw [pushMsg_fin, pushMsg_vin, pushMsg_roots]
  simp only [List.length_append, List.length_singleton]
  refine ⟨?_, ?_, ?_, ?_, ?_⟩
  · exact Nat.le_trans h0 (Nat.le_add_right _ _)
  · intro id hid z hz
    rcases Nat.lt_succ_iff_lt_or_eq.mp hid with hlt | he
    · rw [hstable id hlt] at hz
      exact h1 id hlt z hz
    · subst he
      rw [hnewscope] at hz
      rw [hord]
      exact List.mem_append.mpr (Or.inr (List.mem_cons_of_mem x (hsc z hz)))
  · intro y id hid
    rcases (mem_insertAdj st.vin st.fin.length g r' id y).mp hid with hold | ⟨he, hf⟩
    · obtain ⟨hlt, hb⟩ := h2 y id hold
      refine ⟨Nat.lt_succ_of_lt hlt, ?_⟩
      rw [hstable id hlt]
      exact hb
    · subst he
      refine ⟨Nat.lt_succ_self _, ?_⟩
      rw [hnewscope, hbvar_g]
      exact hf
  · intro id y hid hb
    rcases Nat.lt_succ_iff_lt_or_eq.mp hid with hlt | he
    · rw [hstable id hlt] at hb
      exact (mem_insertAdj _ _ _ _ _ _).mpr (Or.inl (h3 id y hlt hb))
    · subst he
      rw [hnewscope, hbvar_g] at hb
      exact (mem_insertAdj _ _ _ _ _ _).mpr (Or.inr ⟨rfl, hb⟩)
  · intro fid
    by_cases hgs : g.scope.length = 0
    · rw [if_pos hgs, List.mem_append, List.mem_singleton]
      have hgs2 : g.scope = [] := List.length_eq_zero.mp hgs
      constructor
      · rintro (h | h)
        · obtain ⟨ha, hb2, hc⟩ := (h4 fid).mp h
          refine ⟨ha, Nat.lt_succ_of_lt hb2, ?_⟩
          rw [hstable fid hb2]
          exact hc
        · subst h
          refine ⟨h0, Nat.lt_succ_self _, ?_⟩
          rw [hnewscope]
          exact hgs2
      · rintro ⟨ha, hb2, hc⟩
        rcases Nat.lt_succ_iff_lt_or_eq.mp hb2 with hlt | he
        · rw [hstable fid hlt] at hc
          exact Or.inl ((h4 fid).mpr ⟨ha, hlt, hc⟩)
        · exact Or.inr he
    · rw [if_neg hgs]
      constructor
      · intro h
        obtain ⟨ha, hb2, hc⟩ := (h4 fid).mp h
        refine ⟨ha, Nat.lt_succ_of_lt hb2, ?_⟩
        rw [hstable fid hb2]
        exact hc
      · rintro ⟨ha, hb2, hc⟩
        rcases Nat.lt_succ_iff_lt_or_eq.mp hb2 with hlt | he
        · rw [hstable fid hlt] at hc
          exact (h4 fid).mpr ⟨ha, hlt, hc⟩
        · exfalso
          subst he
          rw [hnewscope] at hc
          exact hgs (by rw [hc]; rfl)

theorem foldPushInv (m0 : Nat) (ord p r' : List Nat) (x : Nat) (base : List EFactor)
    (msgf : EFactor → EFactor)
    (hord : ord = p ++ x :: r') (hnd : ord.Nodup) :
    ∀ (ids : List Nat) (t : List EFactor) (s : BEState),
      s.fin = base ++ t →
      (∀ i ∈ ids, i < base.length) →
      (∀ i ∈ ids, ∀ z ∈ (msgf (base.getD i dfltF)).scope, z ∈ r') →
      FwdInv m0 ord s →
      FwdInv m0 ord (ids.foldl (fun s j => pushMsg (msgf (s.fin.getD j dfltF)) r' s) s) := by
  intro ids
  induction ids with
  | nil =>
    intro t s _ _ _ hinv
    exact hinv
  | cons j js ih =>
    intro t s hs hlt hsc hinv
    rw [List.foldl_cons]
    have hj : j < base.length := hlt j (List.mem_cons_self j js)
    have hgd : s.fin.getD j dfltF = base.getD j dfltF := by
      rw [hs]
      exact List.getD_append base t dfltF j hj
    have hfin1 : (pushMsg (msgf (s.fin.getD j dfltF)) r' s).fin =
        base ++ (t ++ [msgf (base.getD j dfltF)]) := by
      rw [pushMsg_fin, hgd, hs, List.append_assoc]
    refine ih (t ++ [msgf (base.getD j dfltF)]) _ hfin1
      (fun i hi => hlt i (List.mem_cons_of_mem j hi))
      (fun i hi => hsc i (List.mem_cons_of_mem j hi)) ?_
    refine pushMsg_inv m0 ord s (msgf (s.fin.getD j dfltF)) p r' x hord hnd hinv ?_
    rw [hgd]
    exact hsc j (List.mem_cons_self j js)

theorem bucket_scope_inv (m0 : Nat) (ord p r' : List Nat) (x : Nat) (st : BEState)
    (hord : ord = p ++ x :: r') (hnd : ord.Nodup) (hinv : FwdInv m0 ord st)
    (id : Nat) (hid : id ∈ st.vin x) :
    x ∈ scopeOf st.fin id ∧ ∀ z ∈ scopeOf st.fin id, z = x ∨ z ∈ r' := by
  obtain ⟨h0, h1, h2, h3, h4⟩ := hinv
  obtain ⟨hlt, hb⟩ := h2 x id hid
  have hxmem : x ∈ scopeOf st.fin id := (bvar_some_mem _ _ _ hb).1
  refine ⟨hxmem, ?_⟩
  intro z hz
  have hzord : z ∈ ord := h1 id hlt z hz
  have hxp : x ∉ p := by
    rw [hord, List.nodup_append] at hnd
    intro hx
    exact hnd.2.2 hx (List.mem_cons_self x r')
  rw [hord, bvar_append] at hb
  have hfp : bvar p (scopeOf st.fin id) = none := by
    cases hfp : bvar p (scopeOf st.fin id) with
    | none => rfl
    | some w =>
      rw [hfp] at hb
      have hred : (Option.some w).or (bvar (x :: r') (scopeOf st.fin id)) = some w := rfl
      rw [hred] at hb
      injection hb with hb'
      subst hb'
      exact absurd (bvar_some_mem p _ _ hfp).2 hxp
  have hzp : z ∉ p := fun hzp => ((bvar_none p _).mp hfp) z hzp hz
  rw [hord] at hzord
  rcases List.mem_append.mp hzord with h | h
  · exact absurd h hzp
  · rcases List.mem_cons.mp h with h | h
    · exact Or.inl h
    · exact Or.inr h

theorem stepVar_inv (m0 : Nat) (ord : List Nat) (m : Influ) (x : Nat) (p r' : List Nat)
    (st : BEState) (hord : ord = p ++ x :: r') (hnd : ord.Nodup)
    (hinv : FwdInv m0 ord st) : FwdInv m0 ord (stepVar m x r' st) := by
  unfold stepVar
  by_cases hne : st.vin x = []
  · rw [if_pos hne]
    exact hinv
  rw [if_neg hne]
  have hids_lt : ∀ i ∈ st.vin x, i < st.fin.length := fun i hi => (hinv.2.2.1 x i hi).1
  have hbsc : ∀ i ∈ st.vin x,
      x ∈ scopeOf st.fin i ∧ ∀ z ∈ scopeOf st.fin i, z = x ∨ z ∈ r' :=
    fun i hi => bucket_scope_inv m0 ord p r' x st hord hnd hinv i hi
  have hcomb : ∀ z ∈ (probFold st.fin (filterP st.fin (st.vin x))).scope,
      ∃ i ∈ st.vin x, z ∈ scopeOf st.fin i := by
    intro z hz
    have h := (foldOp_scope fmul (fun _ _ => rfl) st.fin z
      (filterP st.fin (st.vin x)) (constF 1)).mp hz
    rcases h with h | ⟨i, hi, hzi⟩
    · exact absurd h (List.not_mem_nil z)
    · exact ⟨i, List.mem_of_mem_filter hi, hzi⟩
  by_cases hc : m.vtype x = 'c'
  · rw [if_pos hc]
    unfold chanceStep
    have hfmsg_sc : ∀ z ∈ (setType
        (fsum m.card (probFold st.fin (filterP st.fin (st.vin x))) x)
        FType.Probability).scope, z ∈ r' := by
      intro z hz
      rw [scope_setType] at hz
      obtain ⟨hzc, hzx⟩ := (mem_scope_fsum m.card _ x z).mp hz
      obtain ⟨i, hi, hzi⟩ := hcomb z hzc
      rcases (hbsc i hi).2 z hzi with he | h
      · exact absurd he hzx
      · exact h
    have hst1 := pushMsg_inv m0 ord st _ p r' x hord hnd hinv hfmsg_sc
    refine foldPushInv m0 ord p r' x st.fin
      (fun F => setType
        (fdiv (fsum m.card (fmul (probFold st.fin (filterP st.fin (st.vin x))) F) x)
          (setType (fsum m.card (probFold st.fin (filterP st.fin (st.vin x))) x)
            FType.Probability)) FType.Utility)
      hord hnd (filterU st.fin (st.vin x)) [_] _ rfl
      (fun i hi => hids_lt i (List.mem_of_mem_filter hi))
      ?_ hst1
    intro i hi z hz
    rw [scope_setType, scope_fdiv] at hz
    rcases (mem_unionL z _ _).mp hz with hA | hB
    · obtain ⟨hzm, hzx⟩ := (mem_scope_fsum m.card _ x z).mp hA
      rw [scope_fmul] at hzm
      rcases (mem_unionL z _ _).mp hzm with hzc | hzF
      · obtain ⟨i0, hi0, hzi0⟩ := hcomb z hzc
        rcases (hbsc i0 hi0).2 z hzi0 with he | h
        · exact absurd he hzx
        · exact h
      · have hiv := List.mem_of_mem_filter hi
        rcases (hbsc i hiv).2 z hzF with he | h
        · exact absurd he hzx
        · exact h
    · exact hfmsg_sc z hB
  by_cases hd : m.vtype x = 'd'
  · rw [if_neg hc, if_pos hd]
    unfold decisionStep
    have hplt : ∀ i ∈ filterP st.fin (st.vin x), i < st.fin.length :=
      fun i hi => hids_lt i (List.mem_of_mem_filter hi)
    have hult : ∀ i ∈ filterU st.fin (st.vin x), i < st.fin.length :=
      fun i hi => hids_lt i (List.mem_of_mem_filter hi)
    have hslice_sc : ∀ i ∈ filterP st.fin (st.vin x),
        ∀ z ∈ ((fun F => setType (fslice F x 0) FType.Probability)
          (st.fin.getD i dfltF)).scope, z ∈ r' := by
      intro i hi z hz
      rw [scope_setType] at hz
      obtain ⟨hzF, hzx⟩ := (mem_scope_fslice _ x 0 z).mp hz
      have hiv := List.mem_of_mem_filter hi
      rcases (hbsc i hiv).2 z hzF with he | h
      · exact absurd he hzx
      · exact h
    have hst1 := foldPushInv m0 ord p r' x st.fin
      (fun F => setType (fslice F x 0) FType.Probability) hord hnd
      (filterP st.fin (st.vin x)) [] st (List.append_nil _).symm hplt hslice_sc hinv
    have hfin1 : (List.foldl
        (fun s i => pushMsg (setType (fslice (s.fin.getD i dfltF) x 0) FType.Probability) r' s)
        st (filterP st.fin (st.vin x))).fin =
        st.fin ++ (filterP st.fin (st.vin x)).map
          (fun i => setType (fslice (st.fin.getD i dfltF) x 0) FType.Probability) :=
      foldPushFin (fun F => setType (fslice F x 0) FType.Probability) r' st.fin
        (filterP st.fin (st.vin x)) [] st (List.append_nil _).symm hplt
    refine pushMsg_inv m0 ord _ _ p r' x hord hnd hst1 ?_
    intro z hz
    rw [scope_setType] at hz
    obtain ⟨hzc, hzx⟩ := (mem_scope_fmax m.card _ x z).mp hz
    rw [hfin1] at hzc
    have hcong : utilFold (st.fin ++ (filterP st.fin (st.vin x)).map
        (fun i => setType (fslice (st.fin.getD i dfltF) x 0) FType.Probability))
        (filterU st.fin (st.vin x)) = utilFold st.fin (filterU st.fin (st.vin x)) :=
      foldOp_getD_congr fadd st.fin _ (filterU st.fin (st.vin x)) (constF 0) hult
    rw [hcong] at hzc
    have h := (foldOp_scope fadd (fun _ _ => rfl) st.fin z
      (filterU st.fin (st.vin x)) (constF 0)).mp hzc
    rcases h with h | ⟨i, hi, hzi⟩
    · exact absurd h (List.not_mem_nil z)
    · have hiv := List.mem_of_mem_filter hi
      rcases (hbsc i hiv).2 z hzi with he | h2
      · exact absurd he hzx
      · exact h2
  · rw [if_neg hc, if_neg hd]
    exact hinv

theorem forwardSteps_inv (m0 : Nat) (ord : List Nat) (m : Influ) :
    ∀ (q r p0 : List Nat) (st : BEState), ord = p0 ++ (q ++ r) → ord.Nodup →
      FwdInv m0 ord st → FwdInv m0 ord (forwardSteps m q r st) := by
  intro q
  induction q with
  | nil =>
    intro r p0 st _ _ hinv
    exact hinv
  | cons x q' ih =>
    intro r p0 st hord hnd hinv
    show FwdInv m0 ord (forwardSteps m q' r (stepVar m x (q' ++ r) st))
    refine ih r (p0 ++ [x]) _ ?_ hnd ?_
    · rw [hord, List.append_assoc]
      rfl
    · refine stepVar_inv m0 ord m x p0 (q' ++ r) st ?_ hnd hinv
      rw [hord]
      rfl

theorem init_inv (m : Influ) (ord : List Nat)
    (hsc : ∀ f ∈ m.factors, ∀ z ∈ f.scope, z ∈ ord) :
    FwdInv m.factors.length ord (stInit m ord) := by
  refine ⟨Nat.le_refl _, ?_, ?_, ?_, ?_⟩
  · intro id hid z hz
    exact hsc _ (getDF_mem_of_lt m.factors id hid) z hz
  · intro y id hid
    exact (initChar m.factors ord id y).mp hid
  · intro id y hlt hb
    exact (initChar m.factors ord id y).mpr ⟨hlt, hb⟩
  · intro fid
    constructor
    · intro h
      exact absurd h (List.not_mem_nil fid)
    · rintro ⟨hle, hlt, _⟩
      have he : (stInit m ord).fin.length = m.factors.length := rfl
      omega

/-- Claim C4, amended: at every point of the forward pass (after processing the
prefix `p` of the order, with `r` remaining), every pool factor with
non-empty scope resides in exactly one bucket, namely that of the earliest
variable of the elimination order appearing in its scope (not the earliest
remaining one: buckets are never emptied); after initial assignment the
buckets hold exactly the input factors, each in the bucket of its
earliest-eliminated scope variable; and the roots are exactly the messages
with empty scope, while a factor with empty scope resides in no bucket: an
empty-scope message goes to the roots instead of any bucket.  The order is
assumed duplicate-free and to cover the factor scopes, as an order produced
for the model is. -/
theorem bucket_residence_inv (m : Influ) (ord p r : List Nat)
    (hord : ord = p ++ r) (hnd : ord.Nodup)
    (hsc : ∀ f ∈ m.factors, ∀ z ∈ f.scope, z ∈ ord) :
    C4prop m ord p r := by
  have hinv := forwardSteps_inv m.factors.length ord m p r [] (stInit m ord)
    (by rw [hord]; rfl) hnd (init_inv m ord hsc)
  obtain ⟨h0, h1, h2, h3, h4⟩ := hinv
  refine ⟨?_, ?_, ?_, ?_⟩
  · intro id y hlt hne2
    constructor
    · intro hm
      exact (h2 y id hm).2
    · intro hb
      exact h3 id y hlt hb
  · intro id y
    exact initChar m.factors ord id y
  · intro fid
    exact h4 fid
  · intro id y hempty hmem
    have hy := (bvar_some_mem ord _ y (h2 y id hmem).2).1
    rw [hempty] at hy
    cases hy

/-- Witness for the amended C4: scenario 3 under the order [0, 1] at the
point where bucket 0 has been processed. -/
theorem bucket_residence_inv_wit :
    (([0, 1] : List Nat) = [0] ++ [1] ∧ ([0, 1] : List Nat).Nodup ∧
      (∀ f ∈ scen3.factors, ∀ z ∈ f.scope, z ∈ ([0, 1] : List Nat))) ∧
    C4prop scen3 [0, 1] [0] [1] :=
  ⟨⟨rfl, by decide, by decide⟩,
   bucket_residence_inv scen3 [0, 1] [0] [1] rfl (by decide) (by decide)⟩

theorem mem_scope_policyPU (fin : List EFactor) (ids : List Nat) (z : Nat) :
    z ∈ (policyPU fin ids).scope ↔ ∃ i ∈ ids, z ∈ scopeOf fin i := by
  rw [policyPU_eq, scope_fmul, mem_unionL]
  constructor
  · rintro (h | h)
    · have h2 := (foldOp_scope fmul (fun _ _ => rfl) fin z (filterP fin ids) (constF 1)).mp h
      rcases h2 with h2 | ⟨i, hi, hzi⟩
      · exact absurd h2 (List.not_mem_nil z)
      · exact ⟨i, List.mem_of_mem_filter hi, hzi⟩
    · have h2 := (foldOp_scope fadd (fun _ _ => rfl) fin z (filterU fin ids) (constF 0)).mp h
      rcases h2 with h2 | ⟨i, hi, hzi⟩
      · exact absurd h2 (List.not_mem_nil z)
      · exact ⟨i, List.mem_of_mem_filter hi, hzi⟩
  · rintro ⟨i, hi, hzi⟩
    cases hft : (fin.getD i dfltF).ftype with
    | Probability =>
      left
      refine (foldOp_scope fmul (fun _ _ => rfl) fin z (filterP fin ids) (constF 1)).mpr ?_
      refine Or.inr ⟨i, ?_, hzi⟩
      rw [filterP, List.mem_filter]
      exact ⟨hi, by rw [hft]; rfl⟩
    | Utility =>
      right
      refine (foldOp_scope fadd (fun _ _ => rfl) fin z (filterU fin ids) (constF 0)).mpr ?_
      refine Or.inr ⟨i, ?_, hzi⟩
      rw [filterU, List.mem_filter]
      exact ⟨hi, by rw [hft]; rfl⟩

/-- Claim C6, amended: for a decision variable whose bucket is non-empty at
backward-visit time, the stored policy factor has the decision in its scope,
and every other scope variable occurs after it in the elimination order (so,
in particular, the disjunction of the original claim holds); a decision with
an empty bucket gets a scalar policy instead, which is the counterexample's
content.  The order is assumed duplicate-free and to cover the factor
scopes. -/
theorem policy_scope_inv (m : Influ) (ord : List Nat) (x : Nat)
    (hnd : ord.Nodup)
    (hsc : ∀ f ∈ m.factors, ∀ z ∈ f.scope, z ∈ ord)
    (hx : x ∈ ord) (hd : m.vtype x = 'd')
    (hne : (runOk m ord).finalState.vin x ≠ []) :
    C6prop m ord x := by
  obtain ⟨p0, r0, hsplit⟩ := List.append_of_mem hx
  have hinv := forwardSteps_inv m.factors.length ord m ord [] [] (stInit m ord)
    (by rw [List.nil_append, List.append_nil]) hnd (init_inv m ord hsc)
  have hpol : (runOk m ord).policy x =
      some (policyPU (forwardSteps m ord [] (stInit m ord)).fin
        ((forwardSteps m ord [] (stInit m ord)).vin x)) := by
    unfold runOk
    exact backward_mem m _ _ x hd ord.reverse _ (Or.inl (List.mem_reverse.mpr hx))
  have hne' : (forwardSteps m ord [] (stInit m ord)).vin x ≠ [] := hne
  obtain ⟨i0, hi0⟩ := List.exists_mem_of_ne_nil _ hne'
  have hbsc : ∀ i ∈ (forwardSteps m ord [] (stInit m ord)).vin x,
      x ∈ scopeOf (forwardSteps m ord [] (stInit m ord)).fin i ∧
      ∀ z ∈ scopeOf (forwardSteps m ord [] (stInit m ord)).fin i, z = x ∨ z ∈ r0 :=
    fun i hi => bucket_scope_inv m.factors.length ord p0 r0 x
      (forwardSteps m ord [] (stInit m ord)) hsplit hnd hinv i hi
  refine ⟨policyPU (forwardSteps m ord [] (stInit m ord)).fin
    ((forwardSteps m ord [] (stInit m ord)).vin x), hpol, ?_, ?_⟩
  · exact (mem_scope_policyPU _ _ x).mpr ⟨i0, hi0, (hbsc i0 hi0).1⟩
  · intro z hz hzx
    obtain ⟨i, hi, hzi⟩ := (mem_scope_policyPU _ _ z).mp hz
    rcases (hbsc i hi).2 z hzi with he | h
    · exact absurd he hzx
    · exact Or.inl ⟨p0, r0, hsplit, h⟩

/-- Witness for the amended C6: the decision bucket of variable 1 in
scenario 3 under the order [1, 0]. -/
theorem policy_scope_inv_wit :
    (([1, 0] : List Nat).Nodup ∧
      (∀ f ∈ scen3.factors, ∀ z ∈ f.scope, z ∈ ([1, 0] : List Nat)) ∧
      (1 ∈ ([1, 0] : List Nat)) ∧ scen3.vtype 1 = 'd' ∧
      (runOk scen3 [1, 0]).finalState.vin 1 ≠ []) ∧
    C6prop scen3 [1, 0] 1 :=
  ⟨⟨by decide, by decide, by decide, by decide, by decide⟩,
   policy_scope_inv scen3 [1, 0] 1 (by decide) (by decide) (by decide) (by decide)
     (by decide)⟩
